import Mathlib

/-!
Verification of `tools/preprocess_excel_to_md.py`, a small pipeline that
converts spreadsheet workbooks to chunked Markdown documents.

The Python source is embedded shallowly: strings are Lean `String`s
(sequences of Unicode code points, matching Python's `len`-in-characters
semantics), tabular grids are lists of typed columns, and the chunking
loop is a fold over the list of lines of the document.
-/

/-! ## Python string primitives used by the source -/

/-- The line-break characters recognised by Python `str.splitlines`. -/
def isLineBreakChar (c : Char) : Bool :=
  c == '\n' || c == '\r' || c == '\x0b' || c == '\x0c' ||
  c == '\x1c' || c == '\x1d' || c == '\x1e' || c == '\x85' ||
  c == '\u2028' || c == '\u2029'

/-- One step of `splitLinesKeepends`, consuming the document from the
right: a break character starts a fresh line (kept with the line, as
with `keepends=True`), a `'\r'` immediately followed by a line made of a
lone `'\n'` merges into a single `"\r\n"` break, and an ordinary
character is prepended to the current first line. -/
def splitStep (c : Char) (lines : List (List Char)) : List (List Char) :=
  if isLineBreakChar c then
    if c = '\r' ∧ lines.head? = some ['\n'] then ('\r' :: '\n' :: []) :: lines.tail
    else [c] :: lines
  else
    if lines = [] then [[c]]
    else (c :: lines.headD []) :: lines.tail

/-- Python `text.splitlines(keepends=True)` on a list of characters,
expressed as a right fold so that every produced line carries its
terminating break characters. -/
def splitLinesKeepends (cs : List Char) : List (List Char) :=
  cs.foldr splitStep []

/-- The whitespace characters removed by Python `str.strip()`. -/
def isPySpace (c : Char) : Bool :=
  let n := c.toNat
  (9 ≤ n && n ≤ 13) || n == 32 || (28 ≤ n && n ≤ 31) || n == 0x85 || n == 0xa0 ||
  n == 0x1680 || (0x2000 ≤ n && n ≤ 0x200a) || n == 0x2028 || n == 0x2029 ||
  n == 0x202f || n == 0x205f || n == 0x3000

/-- Python `str.strip()` on a list of characters. -/
def pyStrip (l : List Char) : List Char :=
  ((l.dropWhile isPySpace).reverse.dropWhile isPySpace).reverse

/-! ## The chunker (`chunk_text` in the source) -/

/-- `line.strip().startswith(("## ", "### ", "|"))`: the line is a
preferred structural cut point (level-2/3 heading or table row). -/
def hardBoundary (line : List Char) : Bool :=
  let s := pyStrip line
  List.isPrefixOf "## ".data s || List.isPrefixOf "### ".data s ||
    List.isPrefixOf "|".data s

/-- One iteration of the `for line in lines` loop of `chunk_text`.
State is `(chunks, buf, size)`; `buf` is the pending list of lines and
`size` the character count of their concatenation.  Mirrors the source:
first the boundary flush (`size > 0 and size + len(line) > max_chars and
hard_boundary`), then the line is appended, then the hard size flush
(`size >= max_chars`). -/
def chunkStep (maxChars : Nat) (st : List (List Char) × List (List Char) × Nat)
    (line : List Char) : List (List Char) × List (List Char) × Nat :=
  let chunks := st.1
  let buf := st.2.1
  let size := st.2.2
  let flushed :=
    if 0 < size ∧ maxChars < size + line.length ∧ hardBoundary line = true then
      (chunks ++ [buf.flatten], ([] : List (List Char)), 0)
    else
      (chunks, buf, size)
  let buf2 := flushed.2.1 ++ [line]
  let size2 := flushed.2.2 + line.length
  if maxChars ≤ size2 then (flushed.1 ++ [buf2.flatten], [], 0)
  else (flushed.1, buf2, size2)

/-- The line-scanning part of `chunk_text` (the code after the early
return), on a list of characters. -/
def chunk_text_core (text : List Char) (maxChars : Nat) : List (List Char) :=
  let lines := splitLinesKeepends text
  let r := lines.foldl (chunkStep maxChars) ([], [], 0)
  if r.2.1 = [] then r.1 else r.1 ++ [r.2.1.flatten]

/-- `chunk_text(text, max_chars)` from the source: a document no longer
than `max_chars` is returned whole, otherwise it is split line by line. -/
def chunk_text (text : String) (max_chars : Nat) : List String :=
  if text.length ≤ max_chars then [text]
  else (chunk_text_core text.data max_chars).map String.mk

/-- Length of the longest line of a document (0 if there are none). -/
def maxLineLen (text : String) : Nat :=
  ((splitLinesKeepends text.data).map List.length).foldr max 0

/-! ## Basic facts about `splitLinesKeepends` -/

theorem splitStep_flatten (c : Char) (lines : List (List Char)) :
    (splitStep c lines).flatten = c :: lines.flatten := by
  by_cases hb : isLineBreakChar c = true
  · by_cases hm : c = '\r' ∧ lines.head? = some ['\n']
    · obtain ⟨rfl, hh⟩ := hm
      cases lines with
      | nil => simp at hh
      | cons l rest => simp at hh; subst hh; simp [splitStep, hb]
    · simp [splitStep, hb, hm]
  · cases lines with
    | nil => simp [splitStep, hb]
    | cons l rest => simp [splitStep, hb]

theorem splitStep_ne_nil (c : Char) (lines : List (List Char))
    (h : ∀ l ∈ lines, l ≠ []) : ∀ l ∈ splitStep c lines, l ≠ [] := by
  by_cases hb : isLineBreakChar c = true
  · by_cases hm : c = '\r' ∧ lines.head? = some ['\n']
    · obtain ⟨rfl, hh⟩ := hm
      cases lines with
      | nil => simp at hh
      | cons l rest =>
        simp only [splitStep, hb, if_true, hh]
        intro x hx
        simp only [List.head?_cons] at hh
        rcases List.mem_cons.mp (by simpa [hh] using hx) with rfl | hx2
        · simp
        · exact h x (List.mem_cons_of_mem _ hx2)
    · simp only [splitStep, hb, if_true, if_neg hm]
      intro x hx
      rcases List.mem_cons.mp hx with rfl | hx2
      · simp
      · exact h x hx2
  · cases lines with
    | nil => simp [splitStep, hb]
    | cons l rest =>
      simp only [splitStep, hb]
      intro x hx
      rcases List.mem_cons.mp (by simpa using hx) with rfl | hx2
      · simp
      · exact h x (List.mem_cons_of_mem _ hx2)

theorem splitLinesKeepends_flatten (cs : List Char) :
    (splitLinesKeepends cs).flatten = cs := by
  induction cs with
  | nil => rfl
  | cons c rest ih =>
    simp only [splitLinesKeepends, List.foldr_cons] at *
    rw [splitStep_flatten, ih]

theorem splitLinesKeepends_ne_nil (cs : List Char) :
    ∀ l ∈ splitLinesKeepends cs, l ≠ [] := by
  induction cs with
  | nil => simp [splitLinesKeepends]
  | cons c rest ih =>
    simp only [splitLinesKeepends, List.foldr_cons] at *
    exact splitStep_ne_nil c _ ih

theorem le_foldr_max (l : List Nat) (x : Nat) (hx : x ∈ l) :
    x ≤ l.foldr max 0 := by
  induction l with
  | nil => cases hx
  | cons a rest ih =>
    rcases List.mem_cons.mp hx with h | h
    · simp [h, Nat.le_max_left]
    · exact le_trans (ih h) (by simp [Nat.le_max_right])

/-! ## Invariants of the chunking loop -/

/-- Loop invariant of the `for line in lines` loop of `chunk_text`:
`size` counts the characters pending in `buf`, the buffer stays strictly
below `maxChars` between iterations, buffered lines are non-empty, and
every completed chunk is non-empty and at most `maxChars + L` long. -/
def ChunkInv (maxChars L : Nat) (st : List (List Char) × List (List Char) × Nat) : Prop :=
  st.2.2 = st.2.1.flatten.length ∧ st.2.2 < maxChars ∧
  (∀ b ∈ st.2.1, b ≠ []) ∧ (∀ c ∈ st.1, c ≠ [] ∧ c.length ≤ maxChars + L)

theorem chunkStep_inv (maxChars L : Nat) (st : List (List Char) × List (List Char) × Nat)
    (line : List Char) (hline : line ≠ []) (hlen : line.length ≤ L)
    (hinv : ChunkInv maxChars L st) (hmax : 1 ≤ maxChars) :
    ChunkInv maxChars L (chunkStep maxChars st line) ∧
    (chunkStep maxChars st line).1.flatten ++ (chunkStep maxChars st line).2.1.flatten
      = st.1.flatten ++ st.2.1.flatten ++ line := by
  obtain ⟨chunks, buf, size⟩ := st
  obtain ⟨hsz, hlt, hbuf, hchunks⟩ := hinv
  simp only at hsz hlt hbuf hchunks
  have hlpos : 0 < line.length := List.length_pos.mpr hline
  by_cases h1 : 0 < size ∧ maxChars < size + line.length ∧ hardBoundary line = true
  · have hbflat : buf.flatten ≠ [] := by
      have h0 : 0 < buf.flatten.length := by omega
      exact List.length_pos.mp h0
    have hbound : buf.flatten.length ≤ maxChars + L := by omega
    by_cases h2 : maxChars ≤ 0 + line.length
    · simp only [chunkStep, if_pos h1, if_pos h2, ChunkInv]
      refine ⟨⟨by simp, by omega, by simp, ?_⟩, by simp⟩
      simp only [List.forall_mem_append, List.forall_mem_singleton]
      refine ⟨⟨hchunks, hbflat, hbound⟩, ?_⟩
      simpa using ⟨hline, by omega⟩
    · simp only [chunkStep, if_pos h1, if_neg h2, ChunkInv]
      refine ⟨⟨by simp, by omega, by simp [hline], ?_⟩, by simp⟩
      simp only [List.forall_mem_append, List.forall_mem_singleton]
      exact ⟨hchunks, hbflat, hbound⟩
  · by_cases h2 : maxChars ≤ size + line.length
    · simp only [chunkStep, if_neg h1, if_pos h2, ChunkInv]
      have hflat : ((buf ++ [line]).flatten).length = buf.flatten.length + line.length := by
        simp
      refine ⟨⟨by simp, by omega, by simp, ?_⟩, by simp⟩
      simp only [List.forall_mem_append, List.forall_mem_singleton]
      refine ⟨hchunks, ?_, by omega⟩
      have h0 : 0 < ((buf ++ [line]).flatten).length := by omega
      exact List.length_pos.mp h0
    · simp only [chunkStep, if_neg h1, if_neg h2, ChunkInv]
      refine ⟨⟨by simp [hsz], by omega, ?_, hchunks⟩, by simp⟩
      simp only [List.forall_mem_append, List.forall_mem_singleton]
      exact ⟨hbuf, hline⟩

theorem chunkFold_inv (maxChars L : Nat) (hmax : 1 ≤ maxChars) (lines : List (List Char)) :
    ∀ (st : List (List Char) × List (List Char) × Nat),
      (∀ l ∈ lines, l ≠ [] ∧ l.length ≤ L) → ChunkInv maxChars L st →
      ChunkInv maxChars L (lines.foldl (chunkStep maxChars) st) ∧
      (lines.foldl (chunkStep maxChars) st).1.flatten
          ++ (lines.foldl (chunkStep maxChars) st).2.1.flatten
        = st.1.flatten ++ st.2.1.flatten ++ lines.flatten := by
  induction lines with
  | nil => intro st _ h; simpa using h
  | cons line rest ih =>
    intro st hl hinv
    have hline := hl line (by simp)
    have hstep := chunkStep_inv maxChars L st line hline.1 hline.2 hinv hmax
    have hrest := ih (chunkStep maxChars st line) (fun l hl2 => hl l (by simp [hl2])) hstep.1
    refine ⟨by simpa using hrest.1, ?_⟩
    simp only [List.foldl_cons]
    rw [hrest.2, hstep.2]
    simp

theorem flatten_ne_nil_of_mem (ls : List (List Char)) (hne : ls ≠ [])
    (h : ∀ l ∈ ls, l ≠ []) : ls.flatten ≠ [] := by
  cases ls with
  | nil => exact absurd rfl hne
  | cons l rest =>
    have hl : l ≠ [] := h l (by simp)
    cases l with
    | nil => exact absurd rfl hl
    | cons c cs => simp

theorem chunk_text_core_eq (text : List Char) (maxChars : Nat) :
    chunk_text_core text maxChars =
      (if ((splitLinesKeepends text).foldl (chunkStep maxChars) ([], [], 0)).2.1 = []
       then ((splitLinesKeepends text).foldl (chunkStep maxChars) ([], [], 0)).1
       else ((splitLinesKeepends text).foldl (chunkStep maxChars) ([], [], 0)).1
            ++ [((splitLinesKeepends text).foldl (chunkStep maxChars) ([], [], 0)).2.1.flatten]) :=
  rfl

theorem chunk_text_core_flatten (text : List Char) (maxChars : Nat) (hmax : 1 ≤ maxChars) :
    (chunk_text_core text maxChars).flatten = text := by
  have hlines : ∀ l ∈ splitLinesKeepends text,
      l ≠ [] ∧ l.length ≤ ((splitLinesKeepends text).map List.length).foldr max 0 := by
    intro l hl
    exact ⟨splitLinesKeepends_ne_nil text l hl,
      le_foldr_max _ _ (List.mem_map_of_mem _ hl)⟩
  have hinv0 : ChunkInv maxChars (((splitLinesKeepends text).map List.length).foldr max 0)
      ([], [], 0) := ⟨by simp, by simpa using hmax, by simp, by simp⟩
  have h := chunkFold_inv maxChars _ hmax (splitLinesKeepends text) ([], [], 0) hlines hinv0
  rw [chunk_text_core_eq]
  split
  · rename_i hemp
    have h2 := h.2
    rw [hemp] at h2
    simpa [splitLinesKeepends_flatten] using h2
  · simpa [splitLinesKeepends_flatten] using h.2

theorem chunk_text_core_props (text : List Char) (maxChars L : Nat) (hmax : 1 ≤ maxChars)
    (hL : ∀ l ∈ splitLinesKeepends text, l.length ≤ L) :
    ∀ c ∈ chunk_text_core text maxChars, c ≠ [] ∧ c.length ≤ maxChars + L := by
  have hlines : ∀ l ∈ splitLinesKeepends text, l ≠ [] ∧ l.length ≤ L := by
    intro l hl
    exact ⟨splitLinesKeepends_ne_nil text l hl, hL l hl⟩
  have hinv0 : ChunkInv maxChars L ([], [], 0) := ⟨by simp, by simpa using hmax, by simp, by simp⟩
  have h := (chunkFold_inv maxChars L hmax (splitLinesKeepends text) ([], [], 0) hlines hinv0).1
  obtain ⟨hsz, hlt, hbuf, hchunks⟩ := h
  rw [chunk_text_core_eq]
  split
  · exact hchunks
  · rename_i hne
    intro c hc
    rcases List.mem_append.mp hc with hc | hc
    · exact hchunks c hc
    · have hceq : c = ((splitLinesKeepends text).foldl (chunkStep maxChars)
          ([], [], 0)).2.1.flatten := by simpa using hc
      subst hceq
      refine ⟨flatten_ne_nil_of_mem _ hne hbuf, by omega⟩

theorem data_foldl_append (xs : List String) (a : String) :
    (xs.foldl (fun r s => r ++ s) a).data = a.data ++ (xs.map String.data).flatten := by
  induction xs generalizing a with
  | nil => simp
  | cons x rest ih => simp [ih, String.data_append]

theorem join_map_mk (ls : List (List Char)) :
    String.join (ls.map String.mk) = String.mk ls.flatten := by
  apply String.ext
  rw [String.join, data_foldl_append]
  have h : ∀ l : List (List Char), (l.map String.mk).map String.data = l := by
    intro l
    induction l with
    | nil => rfl
    | cons a rest ih => simp only [List.map_cons, ih]
  rw [h]
  rfl

/-! ## The chunker claims -/

/-- Claim C1 (chunker round-trip): for every document `D` and positive
maximum chunk size `M`, concatenating the chunks of `chunk_text D M` in
order reproduces `D` exactly. -/
theorem chunk_text_round_trip (D : String) (M : Nat) (hM : 0 < M) :
    String.join (chunk_text D M) = D := by
  unfold chunk_text
  split
  · apply String.ext
    rw [String.join, data_foldl_append]
    simp
  · rw [join_map_mk, chunk_text_core_flatten D.data M hM]

/-- Witness for the round-trip claim at a concrete document. -/
theorem chunk_text_round_trip_witness :
    String.join (chunk_text "ab\ncd\nef\n" 3) = "ab\ncd\nef\n" :=
  chunk_text_round_trip "ab\ncd\nef\n" 3 (by decide)

/-- Claim C5 (degenerate case): a document whose length is within the
maximum is returned unchanged as the sole chunk. -/
theorem chunk_text_degenerate (D : String) (M : Nat) (h : D.length ≤ M) :
    chunk_text D M = [D] := by
  simp [chunk_text, h]

/-- Witness for the degenerate-case claim at a concrete document. -/
theorem chunk_text_degenerate_witness : chunk_text "hi" 10 = ["hi"] :=
  chunk_text_degenerate "hi" 10 (by decide)

/-- Claim C4 (soft size bound): every chunk is at most `M` plus the
length of the longest line of the document. -/
theorem chunk_text_size_bound (D : String) (M : Nat) (hM : 0 < M) :
    ∀ c ∈ chunk_text D M, c.length ≤ M + maxLineLen D := by
  unfold chunk_text
  split
  · rename_i h
    intro c hc
    have hceq : c = D := by simpa using hc
    subst hceq
    omega
  · intro c hc
    rcases List.mem_map.mp hc with ⟨l, hl, rfl⟩
    have h := chunk_text_core_props D.data M (maxLineLen D) hM
      (fun l hl => le_foldr_max _ _ (List.mem_map_of_mem _ hl)) l hl
    simpa [String.length] using h.2

/-- Witness for the size-bound claim at a concrete chunk. -/
theorem chunk_text_size_bound_witness :
    ("ab\n" : String).length ≤ 3 + maxLineLen "ab\ncd\nef\n" :=
  chunk_text_size_bound "ab\ncd\nef\n" 3 (by decide) "ab\n" (by decide)

/-- Claim C10 (no empty chunks): a non-empty document never yields an
empty chunk. -/
theorem chunk_text_no_empty_chunks (D : String) (M : Nat) (hD : D ≠ "") (hM : 1 ≤ M) :
    ∀ c ∈ chunk_text D M, c ≠ "" := by
  unfold chunk_text
  split
  · intro c hc
    have hceq : c = D := by simpa using hc
    subst hceq
    exact hD
  · intro c hc
    rcases List.mem_map.mp hc with ⟨l, hl, rfl⟩
    have h := chunk_text_core_props D.data M (maxLineLen D) hM
      (fun l hl => le_foldr_max _ _ (List.mem_map_of_mem _ hl)) l hl
    intro hcon
    exact absurd (by simpa [String.ext_iff] using hcon) h.1

/-- Witness for the no-empty-chunks claim at a concrete chunk. -/
theorem chunk_text_no_empty_chunks_witness : ("ab\n" : String) ≠ "" :=
  chunk_text_no_empty_chunks "ab\ncd\nef\n" 3 (by decide) (by decide) "ab\n" (by decide)

/-- Claim C3 (boundary flush): during the scan, if the pending buffer
has reached or exceeded the maximum and the incoming line is a boundary
candidate, the buffer is flushed as a completed chunk before the line is
appended to a fresh buffer (which is itself flushed at once if the line
alone reaches the maximum). -/
theorem chunkStep_boundary_flush (maxChars size : Nat) (chunks buf : List (List Char))
    (line : List Char) (hmax : 0 < maxChars) (hsize : maxChars ≤ size)
    (hb : hardBoundary line = true) (hline : line ≠ []) :
    chunkStep maxChars (chunks, buf, size) line =
      if maxChars ≤ line.length then (chunks ++ [buf.flatten, line], [], 0)
      else (chunks ++ [buf.flatten], [line], line.length) := by
  have hlpos : 0 < line.length := List.length_pos.mpr hline
  have h1 : 0 < size ∧ maxChars < size + line.length ∧ hardBoundary line = true :=
    ⟨by omega, by omega, hb⟩
  by_cases h2 : maxChars ≤ line.length
  · simp only [chunkStep, if_pos h1]
    rw [if_pos h2, if_pos (by simpa using h2)]
    simp
  · simp only [chunkStep, if_pos h1]
    rw [if_neg h2, if_neg (by simpa using h2)]
    simp

/-- Witness for the boundary-flush claim at a concrete loop state. -/
theorem chunkStep_boundary_flush_witness :
    chunkStep 3 ([], [['a', 'b', 'c']], 3) ['|', 'x'] = ([['a', 'b', 'c']], [['|', 'x']], 2) := by
  have h := chunkStep_boundary_flush 3 3 [] [['a', 'b', 'c']] ['|', 'x']
    (by decide) (by decide) (by decide) (by decide)
  simpa using h

/-! ## Tabular grids (shallow model of the `pandas.DataFrame` used here) -/

/-- A spreadsheet cell: missing (`NaN`/`NaT`/`None`), a text value, or a
date value (year, month, day). -/
inductive Cell where
  | null : Cell
  | str : String → Cell
  | date : Nat → Nat → Nat → Cell
deriving DecidableEq

/-- One column of a grid: its header label, whether its dtype is
`datetime64` (pandas tracks the dtype per column), and its cells. -/
structure Column where
  name : String
  isDatetime : Bool
  cells : List Cell
deriving DecidableEq

/-- `df.where(pd.notnull(df), "")` on one column: missing cells become
the empty string.  If any cell was missing, the inserted string value
upcasts the column dtype to `object`, so a datetime column with a
missing cell is no longer datetime-typed afterwards. -/
def whereNotNullCol (col : Column) : Column :=
  { col with
      cells := col.cells.map fun c =>
        match c with
        | Cell.null => Cell.str ""
        | Cell.str s => Cell.str s
        | Cell.date y m d => Cell.date y m d,
      isDatetime :=
        col.isDatetime && !(col.cells.any fun c =>
          match c with
          | Cell.null => true
          | _ => false) }

/-- Zero-padded two-digit rendering, Python `f"{n:02d}"` for `n ≥ 0`. -/
def pad2 (n : Nat) : String := if n < 10 then "0" ++ toString n else toString n

/-- Zero-padded four-digit rendering, the `%Y` field of `strftime`. -/
def pad4 (n : Nat) : String :=
  if n < 10 then "000" ++ toString n
  else if n < 100 then "00" ++ toString n
  else if n < 1000 then "0" ++ toString n
  else toString n

/-- `ts.strftime("%Y-%m-%d")`: the ISO calendar date. -/
def fmtDate (y m d : Nat) : String := pad4 y ++ "-" ++ pad2 m ++ "-" ++ pad2 d

/-- `df[col] = df[col].dt.strftime("%Y-%m-%d")` for a datetime-typed
column (the loop body of `sanitize_df`); other columns are untouched. -/
def strftimeCol (col : Column) : Column :=
  if col.isDatetime then
    { col with
        cells := col.cells.map fun c =>
          match c with
          | Cell.null => Cell.null
          | Cell.str s => Cell.str s
          | Cell.date y m d => Cell.str (fmtDate y m d),
        isDatetime := false }
  else col

/-- `Series.ffill`: each missing cell takes the nearest non-missing
value above it; leading missing cells stay missing. -/
def ffillCells (last : Option Cell) : List Cell → List Cell
  | [] => []
  | Cell.null :: rest => last.getD Cell.null :: ffillCells last rest
  | Cell.str s :: rest => Cell.str s :: ffillCells (some (Cell.str s)) rest
  | Cell.date y m d :: rest =>
      Cell.date y m d :: ffillCells (some (Cell.date y m d)) rest

/-- `sanitize_df` from the source: replace missing values by the empty
string, format datetime columns as ISO dates, then (if there is at
least one column) forward-fill the first two columns. -/
def sanitize_df (df : List Column) : List Column :=
  let df1 := df.map whereNotNullCol
  let df2 := df1.map strftimeCol
  if 0 < df2.length then
    (df2.take 2).map (fun col => { col with cells := ffillCells none col.cells })
      ++ df2.drop 2
  else df2

/-! ## Facts about `sanitize_df` -/

theorem whereNotNullCol_no_null (col : Column) :
    ∀ c ∈ (whereNotNullCol col).cells, c ≠ Cell.null := by
  intro c hc
  simp only [whereNotNullCol, List.mem_map] at hc
  obtain ⟨c0, _, rfl⟩ := hc
  cases c0 <;> simp

theorem strftimeCol_no_null (col : Column) (h : ∀ c ∈ col.cells, c ≠ Cell.null) :
    ∀ c ∈ (strftimeCol col).cells, c ≠ Cell.null := by
  intro c hc
  by_cases hd : col.isDatetime = true
  · simp only [strftimeCol, hd, if_true, List.mem_map] at hc
    obtain ⟨c0, hc0, rfl⟩ := hc
    cases hcase : c0 with
    | null => exact absurd hcase (by simpa [hcase] using h c0 hc0)
    | str s => simp
    | date y m d => simp
  · simp only [strftimeCol, hd] at hc
    exact h c hc

theorem ffillCells_of_no_null (cells : List Cell) (last : Option Cell)
    (h : ∀ c ∈ cells, c ≠ Cell.null) : ffillCells last cells = cells := by
  induction cells generalizing last with
  | nil => rfl
  | cons c rest ih =>
    cases c with
    | null => exact absurd rfl (h Cell.null (by simp))
    | str s => simp [ffillCells, ih _ (fun c hc => h c (List.mem_cons_of_mem _ hc))]
    | date y m d => simp [ffillCells, ih _ (fun c hc => h c (List.mem_cons_of_mem _ hc))]

/-- Claim C7 (null elimination): no cell of the sanitized grid is a
missing-value marker. -/
theorem sanitize_df_no_nulls (df : List Column) :
    ∀ col ∈ sanitize_df df, ∀ c ∈ col.cells, c ≠ Cell.null := by
  intro col hcol
  have hbase : ∀ col2 ∈ (df.map whereNotNullCol).map strftimeCol,
      ∀ c ∈ col2.cells, c ≠ Cell.null := by
    intro col2 hcol2
    rcases List.mem_map.mp hcol2 with ⟨col1, hcol1, rfl⟩
    rcases List.mem_map.mp hcol1 with ⟨col0, _, rfl⟩
    exact strftimeCol_no_null _ (whereNotNullCol_no_null col0)
  simp only [sanitize_df] at hcol
  by_cases hlen : 0 < ((df.map whereNotNullCol).map strftimeCol).length
  · rw [if_pos hlen] at hcol
    rcases List.mem_append.mp hcol with hcol | hcol
    · rcases List.mem_map.mp hcol with ⟨col2, hcol2, rfl⟩
      have h2 := hbase col2 (List.take_subset 2 _ hcol2)
      simpa [ffillCells_of_no_null col2.cells none h2] using h2
    · exact hbase col (List.drop_subset 2 _ hcol)
  · rw [if_neg hlen] at hcol
    exact hbase col hcol

/-- Witness for the null-elimination claim at a concrete grid and cell. -/
theorem sanitize_df_no_nulls_witness : Cell.str "" ≠ Cell.null :=
  sanitize_df_no_nulls [⟨"A", false, [Cell.null]⟩]
    ⟨"A", false, [Cell.str ""]⟩ (by decide) (Cell.str "") (by decide)

/-- Claim C2 fails on the code: `sanitize_df` replaces missing cells by
the empty string before calling `ffill`, and `ffill` only fills missing
cells, so the forward-fill is a no-op.  At a two-column grid whose
second row is missing in both columns, the originally-missing cell in
column 0 comes out as `""` instead of inheriting the value above it. -/
theorem sanitize_df_forward_fill_noop :
    sanitize_df
        [⟨"A", false, [Cell.str "x", Cell.null]⟩,
         ⟨"B", false, [Cell.str "y", Cell.null]⟩]
      = [⟨"A", false, [Cell.str "x", Cell.str ""]⟩,
         ⟨"B", false, [Cell.str "y", Cell.str ""]⟩] := by
  rfl

/-! ## The document renderer (`make_front_matter` and `process_excel`) -/

/-- Number of rows of a grid (the length of the shared index). -/
def nRows (df : List Column) : Nat :=
  match df with
  | [] => 0
  | col :: _ => col.cells.length

/-- `df.empty` in pandas: true when either axis has length zero. -/
def dfEmpty (df : List Column) : Bool :=
  match df with
  | [] => true
  | col :: _ => col.cells.isEmpty

/-- Rendering of one cell inside the Markdown table body. -/
def cellText (c : Cell) : String :=
  match c with
  | Cell.null => "nan"
  | Cell.str s => s
  | Cell.date y m d => fmtDate y m d

/-- Modelled from the spec: the Markdown table-rendering primitive
(`pandas.DataFrame.to_markdown`, an external collaborator the design
treats as a black box converting a grid to a Markdown pipe table with a
header row, a separator row and one row per grid row, omitting the
index column). -/
def df_to_markdown (df : List Column) : String :=
  let header := "| " ++ String.intercalate " | " (df.map Column.name) ++ " |"
  let sep := "|" ++ String.intercalate "|" (df.map fun _ => "---") ++ "|"
  let row := fun i =>
    "| " ++ String.intercalate " | "
      (df.map fun col => cellText (col.cells.getD i Cell.null)) ++ " |"
  String.intercalate "\n" (header :: sep :: (List.range (nRows df)).map row)

/-- Modelled from the spec: `yaml.safe_dump` of the flat string-valued
metadata mapping with `sort_keys=False` — one `key: value` line per
entry, in insertion order. -/
def yamlDumpFlat (meta : List (String × String)) : String :=
  String.join (meta.map fun kv => kv.1 ++ ": " ++ kv.2 ++ "\n")

/-- `make_front_matter` from the source. -/
def make_front_matter (meta : List (String × String)) : String :=
  "---\n" ++ yamlDumpFlat meta ++ "---\n\n"

/-- The per-sheet document body built in `process_excel`: the title
heading, then — only when the grid is non-empty — the Markdown table
and a trailing newline. -/
def md_core (stem sheet : String) (df : List Column) : String :=
  let title := "# " ++ stem ++ " - " ++ sheet ++ "\n\n"
  if !(dfEmpty df) then title ++ df_to_markdown df ++ "\n" else title

/-- The complete rendered document of one sheet (`full_md` in
`process_excel`): front matter followed by the body. -/
def full_md (meta : List (String × String)) (stem sheet : String) (df : List Column) : String :=
  make_front_matter meta ++ md_core stem sheet df

/-- Claim C8 (empty sheet): a sheet whose grid has zero rows still
yields a document consisting of the metadata front matter and the title
line; the table body is omitted and the sheet is not skipped. -/
theorem process_excel_empty_sheet (meta : List (String × String)) (stem sheet : String)
    (df : List Column) (h : nRows df = 0) :
    full_md meta stem sheet df
      = make_front_matter meta ++ ("# " ++ stem ++ " - " ++ sheet ++ "\n\n") := by
  have hemp : dfEmpty df = true := by
    cases df with
    | nil => rfl
    | cons col rest =>
      simp only [nRows] at h
      simp [dfEmpty, List.isEmpty_iff, List.length_eq_zero.mp h]
  simp [full_md, md_core, hemp]

/-- Witness for the empty-sheet claim at a concrete sheet. -/
theorem process_excel_empty_sheet_witness :
    full_md [("source_file", "a.xlsx"), ("sheet", "S1"), ("doc_type", "unknown"),
        ("generated_at", "2024-01-01T00:00:00Z")] "a" "S1" [⟨"A", false, []⟩]
      = make_front_matter [("source_file", "a.xlsx"), ("sheet", "S1"), ("doc_type", "unknown"),
        ("generated_at", "2024-01-01T00:00:00Z")] ++ ("# a - S1\n\n") :=
  process_excel_empty_sheet _ "a" "S1" [⟨"A", false, []⟩] (by rfl)

/-! ## The type classifier (`infer_doc_type` in the source) -/

/-- Substring test, Python `pat in s`, on lists of characters. -/
def containsSub (pat : List Char) : List Char → Bool
  | [] => pat.isEmpty
  | c :: rest => List.isPrefixOf pat (c :: rest) || containsSub pat rest

/-- `pathlib.PurePath.stem`: the file name without its last suffix; a
dot in the first or last position does not start a suffix. -/
def pyStem (fname : String) : String :=
  match (fname.data.reverse).findIdx? (· == '.') with
  | none => fname
  | some p =>
    let i := fname.data.length - 1 - p
    if 0 < i ∧ 0 < p then String.mk (fname.data.take i) else fname

/-- Python `str.lower()`, restricted to the ASCII case mapping. -/
def pyLower (s : String) : String := String.mk (s.data.map Char.toLower)

/-- `infer_doc_type` from the source.  As in the code, the Japanese
keywords are looked up in the full file name while the English keywords
are looked up in the lower-cased stem, and the test/viewpoint branch is
checked before the design/spec branch. -/
def infer_doc_type (fname : String) : String :=
  let name := (pyLower (pyStem fname)).data
  if containsSub "観点".data fname.data || containsSub "view".data name ||
      containsSub "test".data name then "test_viewpoints"
  else if containsSub "設計".data fname.data || containsSub "design".data name ||
      containsSub "仕様".data fname.data then "design_spec"
  else "unknown"

/-- The classifier as the claim describes it: every keyword matched
case-insensitively against the file stem only. -/
def infer_doc_type_stem_only (fname : String) : String :=
  let stem := (pyLower (pyStem fname)).data
  if containsSub "観点".data stem || containsSub "view".data stem ||
      containsSub "test".data stem then "test_viewpoints"
  else if containsSub "設計".data stem || containsSub "design".data stem ||
      containsSub "仕様".data stem then "design_spec"
  else "unknown"

/-- The test/viewpoint keyword condition the code actually applies. -/
def testKeywordHit (fname : String) : Bool :=
  containsSub "観点".data fname.data ||
    containsSub "view".data (pyLower (pyStem fname)).data ||
    containsSub "test".data (pyLower (pyStem fname)).data

/-- The design/spec keyword condition the code actually applies. -/
def designKeywordHit (fname : String) : Bool :=
  containsSub "設計".data fname.data ||
    containsSub "design".data (pyLower (pyStem fname)).data ||
    containsSub "仕様".data fname.data

theorem infer_doc_type_eq (fname : String) :
    infer_doc_type fname =
      if testKeywordHit fname then "test_viewpoints"
      else if designKeywordHit fname then "design_spec"
      else "unknown" := rfl

/-- Claim C6 as stated is false at `"abc.設計"`: every keyword check on
the lower-cased stem `"abc"` fails, so stem-only matching classifies it
`unknown`, but the code matches the Japanese design keyword against the
full name (which includes the suffix) and returns `design_spec`. -/
theorem infer_doc_type_counterexample :
    infer_doc_type "abc.設計" = "design_spec" ∧
      infer_doc_type_stem_only "abc.設計" = "unknown" ∧
      pyStem "abc.設計" = "abc" := by
  refine ⟨by decide, by decide, by decide⟩

/-- Claim C6, amended: `infer_doc_type` is total with values in the
fixed three-label set and the test/viewpoint keywords take precedence
over the design/spec keywords; the keyword conditions are the code's
(Japanese keywords on the full file name, English keywords
case-insensitively on the stem). -/
theorem infer_doc_type_total_and_precedence (fname : String) :
    (infer_doc_type fname = "test_viewpoints" ∨ infer_doc_type fname = "design_spec" ∨
      infer_doc_type fname = "unknown") ∧
    (testKeywordHit fname = true → infer_doc_type fname = "test_viewpoints") ∧
    (testKeywordHit fname = false → designKeywordHit fname = true →
      infer_doc_type fname = "design_spec") ∧
    (testKeywordHit fname = false → designKeywordHit fname = false →
      infer_doc_type fname = "unknown") := by
  rw [infer_doc_type_eq]
  cases htest : testKeywordHit fname <;> cases hdes : designKeywordHit fname <;> simp

/-- Witness for the amended classifier claim at a concrete file name. -/
theorem infer_doc_type_total_and_precedence_witness :
    infer_doc_type "abc_test.xlsx" = "test_viewpoints" :=
  (infer_doc_type_total_and_precedence "abc_test.xlsx").2.1 (by decide)

/-! ## MD5 (`hashlib.md5(...).hexdigest()` in the source) -/

/-- UTF-8 encoding of one character, `str.encode("utf-8")` per code
point, as byte values. -/
def utf8EncodeCharNat (c : Char) : List Nat :=
  let n := c.toNat
  if n < 0x80 then [n]
  else if n < 0x800 then [0xc0 + n / 64, 0x80 + n % 64]
  else if n < 0x10000 then
    [0xe0 + n / 4096, 0x80 + (n / 64) % 64, 0x80 + n % 64]
  else
    [0xf0 + n / 262144, 0x80 + (n / 4096) % 64, 0x80 + (n / 64) % 64, 0x80 + n % 64]

/-- `s.encode("utf-8")` as a list of byte values. -/
def utf8Bytes (s : String) : List Nat := s.data.flatMap utf8EncodeCharNat

/-- `2 ^ 32`, the word modulus of MD5. -/
def M32 : Nat := 4294967296

/-- Bitwise complement on 32-bit words. -/
def not32 (x : Nat) : Nat := 4294967295 - x % M32

/-- Left rotation of a 32-bit word. -/
def rotl32 (x s : Nat) : Nat := ((x <<< s) % M32) + (x >>> (32 - s))

/-- The four bytes of a 32-bit word, least significant first. -/
def word32Bytes (x : Nat) : List Nat :=
  [x % 256, (x / 256) % 256, (x / 65536) % 256, (x / 16777216) % 256]

/-- The eight bytes of a 64-bit word, least significant first. -/
def word64Bytes (x : Nat) : List Nat :=
  [x % 256, (x / 256) % 256, (x / 65536) % 256, (x / 16777216) % 256,
   (x / 4294967296) % 256, (x / 1099511627776) % 256,
   (x / 281474976710656) % 256, (x / 72057594037927936) % 256]

/-- MD5 padding: a `0x80` byte, zeros up to 56 mod 64, then the bit
length as a 64-bit little-endian quantity. -/
def md5Pad (msg : List Nat) : List Nat :=
  let k := (120 - (msg.length + 1) % 64) % 64
  msg ++ [128] ++ List.replicate k 0
    ++ word64Bytes ((8 * msg.length) % 18446744073709551616)

/-- Little-endian 32-bit words of a 64-byte block. -/
def bytesToWords : List Nat → List Nat
  | b0 :: b1 :: b2 :: b3 :: rest =>
      (b0 + 256 * b1 + 65536 * b2 + 16777216 * b3) :: bytesToWords rest
  | _ => []

/-- The 64 MD5 sine-table constants. -/
def md5K : List Nat :=
  [0xd76aa478, 0xe8c7b756, 0x242070db, 0xc1bdceee,
   0xf57c0faf, 0x4787c62a, 0xa8304613, 0xfd469501,
   0x698098d8, 0x8b44f7af, 0xffff5bb1, 0x895cd7be,
   0x6b901122, 0xfd987193, 0xa679438e, 0x49b40821,
   0xf61e2562, 0xc040b340, 0x265e5a51, 0xe9b6c7aa,
   0xd62f105d, 0x02441453, 0xd8a1e681, 0xe7d3fbc8,
   0x21e1cde6, 0xc33707d6, 0xf4d50d87, 0x455a14ed,
   0xa9e3e905, 0xfcefa3f8, 0x676f02d9, 0x8d2a4c8a,
   0xfffa3942, 0x8771f681, 0x6d9d6122, 0xfde5380c,
   0xa4beea44, 0x4bdecfa9, 0xf6bb4b60, 0xbebfbc70,
   0x289b7ec6, 0xeaa127fa, 0xd4ef3085, 0x04881d05,
   0xd9d4d039, 0xe6db99e5, 0x1fa27cf8, 0xc4ac5665,
   0xf4292244, 0x432aff97, 0xab9423a7, 0xfc93a039,
   0x655b59c3, 0x8f0ccc92, 0xffeff47d, 0x85845dd1,
   0x6fa87e4f, 0xfe2ce6e0, 0xa3014314, 0x4e0811a1,
   0xf7537e82, 0xbd3af235, 0x2ad7d2bb, 0xeb86d391]

/-- The 64 MD5 per-round rotation amounts. -/
def md5S : List Nat :=
  [7, 12, 17, 22, 7, 12, 17, 22, 7, 12, 17, 22, 7, 12, 17, 22,
   5, 9, 14, 20, 5, 9, 14, 20, 5, 9, 14, 20, 5, 9, 14, 20,
   4, 11, 16, 23, 4, 11, 16, 23, 4, 11, 16, 23, 4, 11, 16, 23,
   6, 10, 15, 21, 6, 10, 15, 21, 6, 10, 15, 21, 6, 10, 15, 21]

/-- One MD5 operation (round `i` of 64) on the register quadruple. -/
def md5Round (w : List Nat) (st : Nat × Nat × Nat × Nat) (i : Nat) :
    Nat × Nat × Nat × Nat :=
  let a := st.1
  let b := st.2.1
  let c := st.2.2.1
  let d := st.2.2.2
  let fg :=
    if i < 16 then ((b &&& c) ||| (not32 b &&& d), i)
    else if i < 32 then ((d &&& b) ||| (not32 d &&& c), (5 * i + 1) % 16)
    else if i < 48 then (b ^^^ c ^^^ d, (3 * i + 5) % 16)
    else (c ^^^ (b ||| not32 d), (7 * i) % 16)
  let f := (fg.1 + a + md5K.getD i 0 + w.getD fg.2 0) % M32
  (d, (b + rotl32 f (md5S.getD i 0)) % M32, b, c)

/-- Processing of one 64-byte block. -/
def md5Block (st : Nat × Nat × Nat × Nat) (block : List Nat) :
    Nat × Nat × Nat × Nat :=
  let w := bytesToWords block
  let r := (List.range 64).foldl (md5Round w) st
  ((st.1 + r.1) % M32, (st.2.1 + r.2.1) % M32,
   (st.2.2.1 + r.2.2.1) % M32, (st.2.2.2 + r.2.2.2) % M32)

/-- The padded message cut into 64-byte blocks. -/
def toBlocks (bs : List Nat) (fuelWords : Nat) : List (List Nat) :=
  match fuelWords with
  | 0 => []
  | fuel + 1 =>
    match bs with
    | [] => []
    | _ => bs.take 64 :: toBlocks (bs.drop 64) fuel

/-- The 16-byte MD5 digest of a byte message. -/
def md5Digest (msg : List Nat) : List Nat :=
  let padded := md5Pad msg
  let st := (toBlocks padded padded.length).foldl md5Block
    (0x67452301, 0xefcdab89, 0x98badcfe, 0x10325476)
  word32Bytes st.1 ++ word32Bytes st.2.1 ++ word32Bytes st.2.2.1 ++ word32Bytes st.2.2.2

/-- The sixteen lowercase hexadecimal digits. -/
def hexDigits : List Char := "0123456789abcdef".data

/-- The hexadecimal digit of a value (taken mod 16). -/
def hexDigitChar (k : Nat) : Char := hexDigits.getD (k % 16) '0'

/-- Two hexadecimal digits of one byte. -/
def byteHex (b : Nat) : List Char := [hexDigitChar (b / 16), hexDigitChar b]

/-- `hashlib.md5(chunk.encode("utf-8")).hexdigest()[:8]` from the
source: the first eight hex digits (four bytes) of the MD5 digest. -/
def md5hex8 (s : String) : String :=
  String.mk (((md5Digest (utf8Bytes s)).take 4).flatMap byteHex)

/-! ## The file emitter naming (`process_excel` output loop) -/

/-- The output file name built in `process_excel` for chunk `i`
(1-based) of a document split into `nchunks` chunks: the base identity
`stem__sheet`, a zero-padded part index only when more than one chunk
exists, and the 8-character content-hash suffix. -/
def out_name (stem sheet : String) (nchunks i : Nat) (chunk : String) : String :=
  let base := stem ++ "__" ++ sheet
  let base2 := if 1 < nchunks then base ++ "__part" ++ pad2 i else base
  base2 ++ "__" ++ md5hex8 chunk ++ ".md"

/-! ## Shape of the hash suffix -/

theorem take4_append_word32 (a : Nat) (rest : List Nat) :
    (word32Bytes a ++ rest).take 4 = word32Bytes a := by
  simp [word32Bytes]

theorem hexDigitChar_mem (k : Nat) : hexDigitChar k ∈ hexDigits := by
  have h : k % 16 < 16 := Nat.mod_lt _ (by omega)
  unfold hexDigitChar
  set m := k % 16 with hm
  interval_cases m <;> decide

theorem mem_byteHex_flatMap (bs : List Nat) (c : Char) (h : c ∈ bs.flatMap byteHex) :
    c ∈ hexDigits := by
  rcases List.mem_flatMap.mp h with ⟨b, _, hb⟩
  simp only [byteHex, List.mem_cons, List.not_mem_nil, or_false] at hb
  rcases hb with rfl | rfl <;> exact hexDigitChar_mem _

theorem md5hex8_shape (s : String) :
    (md5hex8 s).data.length = 8 ∧ ∀ c ∈ (md5hex8 s).data, c ∈ hexDigits := by
  constructor
  · simp only [md5hex8, md5Digest, List.append_assoc]
    rw [take4_append_word32]
    simp [word32Bytes, byteHex]
  · intro c hc
    simp only [md5hex8] at hc
    exact mem_byteHex_flatMap _ c hc

/-! ## Injectivity machinery for the hash-collision argument -/

/-- Numeric value of one lowercase hexadecimal digit. -/
def hexVal (c : Char) : Nat :=
  if c = '0' then 0 else if c = '1' then 1 else if c = '2' then 2
  else if c = '3' then 3 else if c = '4' then 4 else if c = '5' then 5
  else if c = '6' then 6 else if c = '7' then 7 else if c = '8' then 8
  else if c = '9' then 9 else if c = 'a' then 10 else if c = 'b' then 11
  else if c = 'c' then 12 else if c = 'd' then 13 else if c = 'e' then 14
  else 15

theorem hexVal_lt : ∀ c ∈ hexDigits, hexVal c < 16 := by decide

theorem hexVal_inj : ∀ c ∈ hexDigits, ∀ d ∈ hexDigits, hexVal c = hexVal d → c = d := by
  decide

/-- Value of a hex string read with the first digit least significant. -/
def hexListVal : List Char → Nat
  | [] => 0
  | c :: rest => hexVal c + 16 * hexListVal rest

theorem hexListVal_lt (l : List Char) (h : ∀ c ∈ l, c ∈ hexDigits) :
    hexListVal l < 16 ^ l.length := by
  induction l with
  | nil => simp [hexListVal]
  | cons c rest ih =>
    have hc := hexVal_lt c (h c (by simp))
    have hr := ih (fun d hd => h d (List.mem_cons_of_mem _ hd))
    have hp : (16 : Nat) ^ (c :: rest).length = 16 ^ rest.length * 16 := by
      simp [pow_succ]
    simp only [hexListVal]
    omega

theorem hexListVal_inj (l1 : List Char) :
    ∀ l2 : List Char, l1.length = l2.length →
      (∀ c ∈ l1, c ∈ hexDigits) → (∀ c ∈ l2, c ∈ hexDigits) →
      hexListVal l1 = hexListVal l2 → l1 = l2 := by
  induction l1 with
  | nil =>
    intro l2 hlen _ _ _
    exact (List.length_eq_zero.mp hlen.symm).symm
  | cons a r1 ih =>
    intro l2 hlen h1 h2 hv
    cases l2 with
    | nil => simp at hlen
    | cons b r2 =>
      have ha := hexVal_lt a (h1 a (by simp))
      have hb := hexVal_lt b (h2 b (by simp))
      simp only [hexListVal] at hv
      have hvals : hexVal a = hexVal b ∧ hexListVal r1 = hexListVal r2 := by omega
      have hab : a = b := hexVal_inj a (h1 a (by simp)) b (h2 b (by simp)) hvals.1
      have hr : r1 = r2 := by
        refine ih r2 (by simpa using hlen) ?_ ?_ hvals.2
        · exact fun c hc => h1 c (List.mem_cons_of_mem _ hc)
        · exact fun c hc => h2 c (List.mem_cons_of_mem _ hc)
      rw [hab, hr]

theorem string_affix_cancel (p q h1 h2 : String)
    (h : p ++ h1 ++ q = p ++ h2 ++ q) : h1 = h2 := by
  apply String.ext
  have hd := congrArg String.data h
  simp only [String.data_append, List.append_assoc] at hd
  exact List.append_cancel_right (List.append_cancel_left hd)

/-! ## The emitter claims -/

set_option maxHeartbeats 2000000 in
/-- Claim C9 as stated is false: the hash suffix is a string of eight
hexadecimal digits, so it ranges over the finitely many values
`16 ^ 8`; by pigeonhole, two distinct single-chunk documents with the
same base identity must collide on the emitted file name. -/
theorem out_name_not_injective :
    ¬ (∀ c1 c2 : String, c1 ≠ c2 →
        out_name "book" "Sheet1" 1 1 c1 ≠ out_name "book" "Sheet1" 1 1 c2) := by
  intro hP
  have hcontent : ∀ m n : Nat,
      String.mk (List.replicate m 'x') = String.mk (List.replicate n 'x') → m = n := by
    intro m n h
    have h2 := congrArg (fun s => s.data.length) h
    simpa using h2
  have hfinj : Function.Injective
      (fun n => md5hex8 (String.mk (List.replicate n 'x'))) := by
    intro m n hmn
    by_contra hne
    have hcne : String.mk (List.replicate m 'x') ≠ String.mk (List.replicate n 'x') :=
      fun h => hne (hcontent m n h)
    refine hP _ _ hcne ?_
    simp only [out_name]
    rw [show md5hex8 (String.mk (List.replicate m 'x'))
        = md5hex8 (String.mk (List.replicate n 'x')) from hmn]
  have hgbound : ∀ n : Nat,
      hexListVal (md5hex8 (String.mk (List.replicate n 'x'))).data < 16 ^ 8 := by
    intro n
    obtain ⟨hlen, hmem⟩ := md5hex8_shape (String.mk (List.replicate n 'x'))
    have h := hexListVal_lt _ hmem
    rwa [hlen] at h
  have hginj : Function.Injective
      (fun n => (⟨hexListVal (md5hex8 (String.mk (List.replicate n 'x'))).data,
        hgbound n⟩ : Fin (16 ^ 8))) := by
    intro m n hmn
    have hv : hexListVal (md5hex8 (String.mk (List.replicate m 'x'))).data
        = hexListVal (md5hex8 (String.mk (List.replicate n 'x'))).data :=
      congrArg Fin.val hmn
    obtain ⟨hlen1, hmem1⟩ := md5hex8_shape (String.mk (List.replicate m 'x'))
    obtain ⟨hlen2, hmem2⟩ := md5hex8_shape (String.mk (List.replicate n 'x'))
    have hdata := hexListVal_inj _ _ (by rw [hlen1, hlen2]) hmem1 hmem2 hv
    exact hfinj (String.ext hdata)
  obtain ⟨a, b, hab, hgab⟩ := Finite.exists_ne_map_eq_of_infinite
    (fun n => (⟨hexListVal (md5hex8 (String.mk (List.replicate n 'x'))).data,
      hgbound n⟩ : Fin (16 ^ 8)))
  exact hab (hginj hgab)

/-- Claim C9, amended: each emitted name is the base identity, then a
zero-padded part index exactly when more than one chunk exists, then
the 8-character hash suffix; and for the same base identity and part
position, documents whose truncated content hashes differ get different
file names (a collision of the truncated hash — possible by pigeonhole —
is the only way two such names can coincide). -/
theorem out_name_composition (stem sheet : String) (n i : Nat) (c1 c2 : String)
    (h : md5hex8 c1 ≠ md5hex8 c2) :
    out_name stem sheet n i c1 ≠ out_name stem sheet n i c2 ∧
    out_name stem sheet 1 i c1
      = stem ++ "__" ++ sheet ++ "__" ++ md5hex8 c1 ++ ".md" ∧
    (1 < n → out_name stem sheet n i c1
      = stem ++ "__" ++ sheet ++ "__part" ++ pad2 i ++ "__" ++ md5hex8 c1 ++ ".md") := by
  refine ⟨?_, by simp [out_name], fun hn => by simp [out_name, hn]⟩
  intro heq
  simp only [out_name] at heq
  exact h (string_affix_cancel _ _ _ _ heq)

set_option maxRecDepth 20000 in
set_option maxHeartbeats 2000000 in
/-- Witness for the amended emitter claim at two concrete chunks. -/
theorem out_name_composition_witness :
    out_name "book" "Sheet1" 1 1 "alpha" ≠ out_name "book" "Sheet1" 1 1 "beta" :=
  (out_name_composition "book" "Sheet1" 1 1 "alpha" "beta" (by decide)).1
